import Mathlib

/-!
Verification development for the reactor engine of `src/reactor.h`
(RF555/reactor_server): a single-threaded readiness-polling loop over a
registry of (file descriptor, handler) registrations.

The repository ships only the header `src/reactor.h`; the defining `.c`
translation unit is not part of `src/`.  Consequently the constants, the
data-model shapes and the public signatures below are embedded from the
header itself, while the bodies of the declared operations are modelled
from the design specification (each such definition carries a doc comment
beginning with Modelled from the spec).
-/

namespace Reactor

/-- SERVER_PORT from src/reactor.h line 11. -/
def SERVER_PORT : Nat := 9034

/-- MAX_QUEUE from src/reactor.h line 13: the registration bound. -/
def MAX_QUEUE : Nat := 16384

/-- MAX_BUFFER from src/reactor.h line 15: client read buffer size. -/
def MAX_BUFFER : Nat := 1024

/-- POLL_TIMEOUT from src/reactor.h line 17: negative timeout, i.e. the
multiplexing call blocks indefinitely. -/
def POLL_TIMEOUT : Int := -1

/-- One registry entry, embedding struct _reactor_node (src/reactor.h:53-85)
minus the intrusive next pointer: the file descriptor and the handler.  The
handler function pointer is represented by an opaque numeric identifier,
since only which handler is installed (not its code address) is observable
in the model. -/
structure Registration where
  fd : Int
  handler : Nat
deriving DecidableEq, Repr

/-- C return types occurring in the public interface of src/reactor.h. -/
inductive CType where
  | void
  | voidPtr
  | intTy
  | handlerFnPtr
deriving DecidableEq, Repr

/-- Names of the functions declared in src/reactor.h. -/
inductive CName where
  | createReactor
  | startReactor
  | stopReactor
  | addFd
  | waitFor
  | signalHandler
  | clientHandler
  | serverHandler
deriving DecidableEq, Repr

/-- The declared signature (return type, parameter types) of each public
function of src/reactor.h lines 128-188, transcribed from the header. -/
def headerSignature : CName → CType × List CType
  | CName.createReactor => (CType.voidPtr, [])
  | CName.startReactor => (CType.void, [CType.voidPtr])
  | CName.stopReactor => (CType.void, [CType.voidPtr])
  | CName.addFd => (CType.void, [CType.voidPtr, CType.intTy, CType.handlerFnPtr])
  | CName.waitFor => (CType.void, [CType.voidPtr])
  | CName.signalHandler => (CType.void, [])
  | CName.clientHandler => (CType.voidPtr, [CType.intTy, CType.voidPtr])
  | CName.serverHandler => (CType.voidPtr, [CType.intTy, CType.voidPtr])

/-- Whether a C return type can carry any information back to the caller:
void carries none, every other return type carries a value. -/
def carriesValue : CType → Bool
  | CType.void => false
  | _ => true

/-- Outcome of an addFd call in the modelled registry: success, or the
resource-exhaustion error of spec section 7 (reported to the caller of add,
out of band of the void C return type, e.g. via errno or a diagnostic). -/
inductive AddResult where
  | ok
  | resourceExhaustion
deriving DecidableEq, Repr

/-- Modelled from the spec: the body of addFd, declared at src/reactor.h:151
but whose defining .c file is missing from the repository.  Spec 4.1: append
a new Registration at the tail of the ordered collection; spec 4.1/7:
exceeding the bound (MAX_QUEUE) is a resource-exhaustion error reported to
the caller, and the engine continues with the existing registrations. -/
def addFd (regs : List Registration) (fd : Int) (handler : Nat) :
    List Registration × AddResult :=
  if MAX_QUEUE ≤ regs.length then (regs, AddResult.resourceExhaustion)
  else (regs ++ [⟨fd, handler⟩], AddResult.ok)

/-- Modelled from the spec: the observable behaviour of one handler
invocation (handler_t, src/reactor.h:28), as seen by the readiness loop:
the pointer it returns (none models NULL, src/reactor.h:25-26) and the
registrations it requests via addFd while running (spec 4.2: the accept
handler registers new client descriptors from inside its own invocation). -/
structure HandlerEffect where
  result : Option Nat
  adds : List Registration
deriving DecidableEq, Repr

/-- The mutable state of a running engine that the loop manipulates: the
registry (struct _reactor_t head list, src/reactor.h:102) and the list of
descriptors closed so far by eviction. -/
structure LoopState where
  regs : List Registration
  closed : List Int
deriving DecidableEq, Repr

/-- Modelled from the spec: an engine is created empty (spec 4.4 create);
the caller then registers the listening descriptor before start. -/
def createReactor : LoopState := ⟨[], []⟩

/-- Apply the addFd calls a handler performed, in order, to the registry. -/
def applyAdds (regs : List Registration) (adds : List Registration) :
    List Registration :=
  adds.foldl (fun rs r => (addFd rs r.fd r.handler).1) regs

/-- Modelled from the spec: dispatching one ready snapshot entry (spec 4.3
steps 3-4): run the handler (its addFd calls mutate the registry), and if
its result is NULL remove the entry's registration from the registry and
close its descriptor. -/
def dispatchOne (behave : Int → HandlerEffect) (st : LoopState)
    (r : Registration) : LoopState :=
  let eff := behave r.fd
  let regs1 := applyAdds st.regs eff.adds
  match eff.result with
  | none => ⟨regs1.filter (fun q => q.fd != r.fd), st.closed ++ [r.fd]⟩
  | some _ => ⟨regs1, st.closed⟩

/-- Modelled from the spec: the scan of one iteration (spec 4.3 step 3):
walk the pre-scan snapshot in registration order, dispatching each entry
that reports readable; returns the final state and the trace of descriptors
whose handlers were invoked, in invocation order. -/
def dispatchPass (behave : Int → HandlerEffect) (ready : Int → Bool) :
    List Registration → LoopState → LoopState × List Int
  | [], st => (st, [])
  | r :: rest, st =>
    if ready r.fd then
      let out := dispatchPass behave ready rest (dispatchOne behave st r)
      (out.1, r.fd :: out.2)
    else
      dispatchPass behave ready rest st

/-- Modelled from the spec: one full iteration of the readiness loop
(spec 4.3): snapshot the registry into the poll set (order preserved),
block until readiness, then scan the snapshot.  ready gives the readable
descriptors this iteration; behave gives each handler's behaviour. -/
def iteration (behave : Int → HandlerEffect) (ready : Int → Bool)
    (st : LoopState) : LoopState × List Int :=
  dispatchPass behave ready st.regs st

/-- Modelled from the spec: the body of client_handler, declared at
src/reactor.h:178 with its defining .c file missing.  Spec 4.2: read up to
MAX_BUFFER bytes; on read error (readResult = none) or a zero-length read
(peer closed) return the failure outcome NULL; on a successful read return
the reactor pointer react.  Pointers are modelled as Option Nat with none
for NULL. -/
def client_handler (readResult : Option Nat) (react : Nat) : Option Nat :=
  match readResult with
  | none => none
  | some 0 => none
  | some (_ + 1) => some react

/-- Modelled from the spec: the body of server_handler, declared at
src/reactor.h:188 with its defining .c file missing.  Spec 4.2: accept a
new connection; on success (acceptResult = some clientFd) register the
client with the client-handler capability via addFd and return the reactor
pointer; on accept failure return NULL.  Returns the updated registry
together with the returned pointer. -/
def server_handler (acceptResult : Option Int) (react : Nat)
    (regs : List Registration) (clientHandlerId : Nat) :
    List Registration × Option Nat :=
  match acceptResult with
  | none => (regs, none)
  | some clientFd => ((addFd regs clientFd clientHandlerId).1, some react)

/-- Phase of the background loop task of an engine. -/
inductive LoopPhase where
  | blocked
  | dispatching
  | exited
deriving DecidableEq, Repr

/-- Lifecycle-relevant state of struct _reactor_t (src/reactor.h:90-116):
the running flag, whether cancellation of the loop task has been requested,
and the observable phase of the loop task. -/
structure EngineState where
  running : Bool
  cancelRequested : Bool
  phase : LoopPhase
deriving DecidableEq, Repr

/-- Modelled from the spec: the body of stopReactor, declared at
src/reactor.h:142 with its defining .c file missing.  Spec 4.4: set running
to false, then request cancellation of the background task, interrupting
the blocking multiplexing call. -/
def stopReactor (st : EngineState) : EngineState :=
  { st with running := false, cancelRequested := true }

/-- Modelled from the spec: one step of the background readiness-loop task
(spec 4.3/5).  The loop suspends only inside the multiplexing call
(phase blocked); with no ready descriptor and no cancellation it stays
blocked indefinitely (POLL_TIMEOUT is negative); a cancellation request
unblocks the indefinite wait; after a dispatch pass the loop exits when
running has become false, else it blocks again. -/
def loopStep (anyReady : Bool) (st : EngineState) : EngineState :=
  match st.phase with
  | LoopPhase.exited => st
  | LoopPhase.blocked =>
    if st.cancelRequested then { st with phase := LoopPhase.exited }
    else if anyReady then { st with phase := LoopPhase.dispatching }
    else st
  | LoopPhase.dispatching =>
    if st.cancelRequested || !st.running then { st with phase := LoopPhase.exited }
    else { st with phase := LoopPhase.blocked }

/-- Iterate the loop task n steps under a readiness schedule. -/
def stepsFrom (readiness : Nat → Bool) (st : EngineState) : Nat → EngineState
  | 0 => st
  | n + 1 => loopStep (readiness n) (stepsFrom readiness st n)

/-- Modelled from the spec: WaitFor, declared at src/reactor.h:158 with its
defining .c file missing, joins the background task (spec 4.4): the call
returns exactly when the loop task reaches the exited phase. -/
def waitForReturns (readiness : Nat → Bool) (st : EngineState) : Prop :=
  ∃ n, (stepsFrom readiness st n).phase = LoopPhase.exited

/-- Modelled from the spec: the engine states reachable between start and
stop (spec section 2 control flow): at start the registry holds exactly the
listening descriptor's registration, and each loop iteration — under any
readiness pattern and any handler behaviour obeying the handler contract —
steps the state. -/
inductive Reachable (listener : Registration) : LoopState → Prop where
  | start : Reachable listener ⟨[listener], []⟩
  | step (behave : Int → HandlerEffect) (ready : Int → Bool) (st : LoopState) :
      Reachable listener st →
      Reachable listener (iteration behave ready st).1

/-- Handler behaviours under which the listening registration survives an
iteration: no handler invocation that reports failure (returns NULL) is for
the listening descriptor — in particular every accept on the listener
succeeds. -/
def PreservesListener (listener : Registration) (behave : Int → HandlerEffect) :
    Prop :=
  ∀ f : Int, (behave f).result = none → f ≠ listener.fd

/-- Reachable states along traces whose every iteration preserves the
listener (accepts on the listening descriptor never fail). -/
inductive ReachableGood (listener : Registration) : LoopState → Prop where
  | start : ReachableGood listener ⟨[listener], []⟩
  | step (behave : Int → HandlerEffect) (ready : Int → Bool) (st : LoopState) :
      PreservesListener listener behave →
      ReachableGood listener st →
      ReachableGood listener (iteration behave ready st).1

/-- Heap node embedding struct _reactor_node (src/reactor.h:53-85): the
descriptor, the handler identifier, and the next pointer — none models the
NULL of the last node (src/reactor.h:82). Addresses are indices into a
finite heap. -/
structure HNode where
  fd : Int
  handler : Nat
  next : Option Nat
deriving DecidableEq, Repr

/-- The engine's registry as the C program lays it out: a heap of nodes and
the head pointer of struct _reactor_t (src/reactor.h:102). -/
structure PtrRegistry where
  heap : List HNode
  head : Option Nat
deriving DecidableEq, Repr

/-- ChainFrom heap p l: following next pointers from p visits exactly the
addresses l and ends at NULL.  The existence of such a finite l is precisely
the statement that the list hanging off p is NULL-terminated and acyclic. -/
inductive ChainFrom (heap : List HNode) : Option Nat → List Nat → Prop where
  | nil : ChainFrom heap none []
  | cons (a : Nat) (node : HNode) (rest : List Nat) :
      heap[a]? = some node →
      ChainFrom heap node.next rest →
      ChainFrom heap (some a) (a :: rest)

/-- Pointer-walking traversal of the registry list with explicit fuel: the
per-iteration poll-set build follows next from the head, collecting the
visited addresses, until NULL; it reports none on fuel exhaustion (a cycle
longer than the fuel) or a dangling pointer. -/
def traverse (heap : List HNode) : Nat → Option Nat → Option (List Nat)
  | _, none => some []
  | 0, some _ => none
  | fuel + 1, some a =>
    match heap[a]? with
    | none => none
    | some node =>
      match traverse heap fuel node.next with
      | none => none
      | some rest => some (a :: rest)

/-- Overwrite the next field of the node at address a (no-op off the heap). -/
def setNext (heap : List HNode) (a : Nat) (nxt : Option Nat) : List HNode :=
  match heap[a]? with
  | none => heap
  | some node => heap.set a ⟨node.fd, node.handler, nxt⟩

/-- Modelled from the spec: the pointer-level body of addFd (declared
src/reactor.h:151, defining .c file missing).  Spec 4.1: append a new
Registration at the tail: allocate a fresh node with next = NULL; if the
list is empty point head at it, otherwise walk to the last node and point
its next at the new node. -/
def addFdPtr (reg : PtrRegistry) (fd : Int) (handler : Nat) : PtrRegistry :=
  let addr := reg.heap.length
  let heap1 := reg.heap ++ [⟨fd, handler, none⟩]
  match reg.head with
  | none => ⟨heap1, some addr⟩
  | some hd =>
    match traverse reg.heap reg.heap.length (some hd) with
    | none => reg
    | some l =>
      match l.getLast? with
      | none => ⟨heap1, some addr⟩
      | some last => ⟨setNext heap1 last (some addr), reg.head⟩

/-- Modelled from the spec: the pointer-level removal used by the loop on
handler failure (spec 4.1 remove): walk the list from p; on the first node
whose descriptor matches, return its next (unlinking the node); otherwise
rebuild the next field of the current node from the recursive result. -/
def removeFrom (heap : List HNode) (fd : Int) :
    Nat → Option Nat → List HNode × Option Nat
  | _, none => (heap, none)
  | 0, some a => (heap, some a)
  | fuel + 1, some a =>
    match heap[a]? with
    | none => (heap, some a)
    | some node =>
      if node.fd = fd then (heap, node.next)
      else
        let out := removeFrom heap fd fuel node.next
        (setNext out.1 a out.2, some a)

/-- Modelled from the spec: pointer-level remove of the registration of a
descriptor (spec 4.1). -/
def removePtr (reg : PtrRegistry) (fd : Int) : PtrRegistry :=
  let out := removeFrom reg.heap fd reg.heap.length reg.head
  ⟨out.1, out.2⟩

/-- Registry heaps reachable through the engine's operations: the empty
registry of create, and closure under pointer-level add and remove. -/
inductive PtrReachable : PtrRegistry → Prop where
  | create : PtrReachable ⟨[], none⟩
  | add (reg : PtrRegistry) (fd : Int) (handler : Nat) :
      PtrReachable reg → PtrReachable (addFdPtr reg fd handler)
  | remove (reg : PtrRegistry) (fd : Int) :
      PtrReachable reg → PtrReachable (removePtr reg fd)

/-- Total number of registrations that the handlers invoked during one pass
over a snapshot request via addFd (spec 4.2: only ready entries have their
handlers run). -/
def addBudget (behave : Int → HandlerEffect) (ready : Int → Bool)
    (snap : List Registration) : Nat :=
  ((snap.filter (fun r => ready r.fd)).map
    (fun r => (behave r.fd).adds.length)).sum

theorem addFd_regs_eq (regs : List Registration) (fd : Int) (handler : Nat) :
    (addFd regs fd handler).1 = regs ∨
    (addFd regs fd handler).1 = regs ++ [⟨fd, handler⟩] := by
  unfold addFd; split <;> simp

theorem addFd_regs_of_lt (regs : List Registration) (fd : Int) (handler : Nat)
    (h : regs.length < MAX_QUEUE) :
    (addFd regs fd handler).1 = regs ++ [⟨fd, handler⟩] := by
  unfold addFd; rw [if_neg (Nat.not_le.2 h)]

theorem addFd_length_le (regs : List Registration) (fd : Int) (handler : Nat) :
    (addFd regs fd handler).1.length ≤ regs.length + 1 := by
  rcases addFd_regs_eq regs fd handler with h | h <;> rw [h] <;> simp

theorem mk_fd_handler (r : Registration) :
    (⟨r.fd, r.handler⟩ : Registration) = r := rfl

theorem applyAdds_nil (regs : List Registration) : applyAdds regs [] = regs := rfl

theorem applyAdds_cons (regs : List Registration) (a : Registration)
    (rest : List Registration) :
    applyAdds regs (a :: rest) = applyAdds (addFd regs a.fd a.handler).1 rest := rfl

theorem applyAdds_eq_append (regs adds : List Registration) :
    ∃ extra, applyAdds regs adds = regs ++ extra ∧ ∀ a ∈ extra, a ∈ adds := by
  induction adds generalizing regs with
  | nil => exact ⟨[], by simp [applyAdds_nil], by simp⟩
  | cons a rest ih =>
    rcases ih (addFd regs a.fd a.handler).1 with ⟨extra, he, hm⟩
    rcases addFd_regs_eq regs a.fd a.handler with h | h
    · refine ⟨extra, ?_, ?_⟩
      · rw [applyAdds_cons, he, h]
      · intro x hx; exact List.mem_cons_of_mem a (hm x hx)
    · refine ⟨⟨a.fd, a.handler⟩ :: extra, ?_, ?_⟩
      · rw [applyAdds_cons, he, h]; simp
      · intro x hx
        rcases List.mem_cons.1 hx with h1 | h1
        · rw [h1, mk_fd_handler]; exact List.mem_cons_self a rest
        · exact List.mem_cons_of_mem a (hm x h1)

theorem applyAdds_length (regs adds : List Registration) :
    (applyAdds regs adds).length ≤ regs.length + adds.length := by
  induction adds generalizing regs with
  | nil => simp [applyAdds_nil]
  | cons a rest ih =>
    rw [applyAdds_cons]
    have h1 := ih (addFd regs a.fd a.handler).1
    have h2 := addFd_length_le regs a.fd a.handler
    simp only [List.length_cons]
    omega

theorem mem_applyAdds_of_mem (regs adds : List Registration) (r : Registration)
    (h : r ∈ regs) : r ∈ applyAdds regs adds := by
  rcases applyAdds_eq_append regs adds with ⟨extra, he, _⟩
  rw [he]; exact List.mem_append_left _ h

theorem mem_applyAdds_cases (regs adds : List Registration) (r : Registration)
    (h : r ∈ applyAdds regs adds) : r ∈ regs ∨ r ∈ adds := by
  rcases applyAdds_eq_append regs adds with ⟨extra, he, hm⟩
  rw [he] at h
  rcases List.mem_append.1 h with h1 | h1
  · exact Or.inl h1
  · exact Or.inr (hm r h1)

theorem mem_applyAdds_of_mem_adds (adds : List Registration) :
    ∀ (regs : List Registration) (a : Registration),
    regs.length + adds.length ≤ MAX_QUEUE → a ∈ adds →
    a ∈ applyAdds regs adds := by
  induction adds with
  | nil => intro regs a _ ha; cases ha
  | cons a0 rest ih =>
    intro regs a hroom ha
    have hlt : regs.length < MAX_QUEUE := by
      simp only [List.length_cons] at hroom; omega
    have h1 : (addFd regs a0.fd a0.handler).1 = regs ++ [⟨a0.fd, a0.handler⟩] :=
      addFd_regs_of_lt _ _ _ hlt
    rw [applyAdds_cons]
    rcases List.mem_cons.1 ha with h2 | h2
    · apply mem_applyAdds_of_mem
      rw [h1, h2, mk_fd_handler]
      exact List.mem_append_right _ (List.mem_singleton.2 rfl)
    · apply ih
      · rw [h1]; simp only [List.length_append, List.length_singleton]
        simp only [List.length_cons] at hroom; omega
      · exact h2

theorem dispatchOne_length (behave : Int → HandlerEffect) (st : LoopState)
    (r : Registration) :
    (dispatchOne behave st r).regs.length ≤
      st.regs.length + (behave r.fd).adds.length := by
  unfold dispatchOne
  cases h : (behave r.fd).result with
  | none =>
    simp only [h]
    have h1 := List.length_filter_le (fun q => q.fd != r.fd)
      (applyAdds st.regs (behave r.fd).adds)
    have h2 := applyAdds_length st.regs (behave r.fd).adds
    omega
  | some v =>
    simp only [h]
    exact applyAdds_length _ _

theorem dispatchOne_closed_eq (behave : Int → HandlerEffect) (st : LoopState)
    (r : Registration) :
    (dispatchOne behave st r).closed = st.closed ∨
    (dispatchOne behave st r).closed = st.closed ++ [r.fd] := by
  unfold dispatchOne
  cases h : (behave r.fd).result with
  | none => simp [h]
  | some v => simp [h]

theorem mem_dispatchOne_of_mem (behave : Int → HandlerEffect) (st : LoopState)
    (r q : Registration) (hq : q ∈ st.regs)
    (hkeep : (behave r.fd).result = none → q.fd ≠ r.fd) :
    q ∈ (dispatchOne behave st r).regs := by
  unfold dispatchOne
  cases h : (behave r.fd).result with
  | none =>
    simp only [h]
    refine List.mem_filter.2 ⟨mem_applyAdds_of_mem _ _ _ hq, ?_⟩
    exact bne_iff_ne.2 (hkeep h)
  | some v =>
    simp only [h]
    exact mem_applyAdds_of_mem _ _ _ hq

theorem not_mem_dispatchOne_fds (behave : Int → HandlerEffect) (st : LoopState)
    (r : Registration) (x : Int)
    (hx : x ∉ st.regs.map Registration.fd)
    (hadds : ∀ a ∈ (behave r.fd).adds, a.fd ≠ x) :
    x ∉ (dispatchOne behave st r).regs.map Registration.fd := by
  intro hmem
  rcases List.mem_map.1 hmem with ⟨q, hq, hqfd⟩
  have hq2 : q ∈ applyAdds st.regs (behave r.fd).adds := by
    unfold dispatchOne at hq
    cases h : (behave r.fd).result with
    | none => simp only [h] at hq; exact (List.mem_filter.1 hq).1
    | some v => simp only [h] at hq; exact hq
  rcases mem_applyAdds_cases _ _ _ hq2 with h1 | h1
  · exact hx (List.mem_map.2 ⟨q, h1, hqfd⟩)
  · exact hadds q h1 hqfd

theorem dispatchPass_nil (behave : Int → HandlerEffect) (ready : Int → Bool)
    (st : LoopState) : dispatchPass behave ready [] st = (st, []) := rfl

theorem dispatchPass_cons_ready (behave : Int → HandlerEffect)
    (ready : Int → Bool) (r : Registration) (rest : List Registration)
    (st : LoopState) (h : ready r.fd = true) :
    dispatchPass behave ready (r :: rest) st =
      ((dispatchPass behave ready rest (dispatchOne behave st r)).1,
       r.fd :: (dispatchPass behave ready rest (dispatchOne behave st r)).2) := by
  simp [dispatchPass, h]

theorem dispatchPass_cons_not_ready (behave : Int → HandlerEffect)
    (ready : Int → Bool) (r : Registration) (rest : List Registration)
    (st : LoopState) (h : ready r.fd = false) :
    dispatchPass behave ready (r :: rest) st =
      dispatchPass behave ready rest st := by
  simp [dispatchPass, h]

theorem dispatchPass_trace (behave : Int → HandlerEffect) (ready : Int → Bool) :
    ∀ (snap : List Registration) (st : LoopState),
    (dispatchPass behave ready snap st).2 =
      (snap.filter (fun r => ready r.fd)).map Registration.fd := by
  intro snap
  induction snap with
  | nil => intro st; rfl
  | cons r rest ih =>
    intro st
    cases h : ready r.fd with
    | true =>
      rw [dispatchPass_cons_ready _ _ _ _ _ h]
      simp [List.filter_cons, h, ih]
    | false =>
      rw [dispatchPass_cons_not_ready _ _ _ _ _ h]
      simp [List.filter_cons, h, ih]

theorem mem_closed_dispatchPass (behave : Int → HandlerEffect)
    (ready : Int → Bool) :
    ∀ (snap : List Registration) (st : LoopState) (x : Int),
    x ∈ st.closed → x ∈ (dispatchPass behave ready snap st).1.closed := by
  intro snap
  induction snap with
  | nil => intro st x hx; exact hx
  | cons r rest ih =>
    intro st x hx
    cases h : ready r.fd with
    | true =>
      rw [dispatchPass_cons_ready _ _ _ _ _ h]
      refine ih (dispatchOne behave st r) x ?_
      rcases dispatchOne_closed_eq behave st r with h1 | h1 <;> rw [h1]
      · exact hx
      · exact List.mem_append_left _ hx
    | false =>
      rw [dispatchPass_cons_not_ready _ _ _ _ _ h]
      exact ih st x hx

theorem not_mem_fds_dispatchPass (behave : Int → HandlerEffect)
    (ready : Int → Bool) :
    ∀ (snap : List Registration) (st : LoopState) (x : Int),
    x ∉ st.regs.map Registration.fd →
    (∀ g ∈ snap, ∀ a ∈ (behave g.fd).adds, a.fd ≠ x) →
    x ∉ (dispatchPass behave ready snap st).1.regs.map Registration.fd := by
  intro snap
  induction snap with
  | nil => intro st x hx _; exact hx
  | cons r rest ih =>
    intro st x hx hadds
    cases h : ready r.fd with
    | true =>
      rw [dispatchPass_cons_ready _ _ _ _ _ h]
      refine ih (dispatchOne behave st r) x ?_ ?_
      · exact not_mem_dispatchOne_fds behave st r x hx
          (hadds r (List.mem_cons_self r rest))
      · intro g hg a ha
        exact hadds g (List.mem_cons_of_mem r hg) a ha
    | false =>
      rw [dispatchPass_cons_not_ready _ _ _ _ _ h]
      refine ih st x hx ?_
      intro g hg a ha
      exact hadds g (List.mem_cons_of_mem r hg) a ha

theorem mem_fds_dispatchPass_of_fresh (behave : Int → HandlerEffect)
    (ready : Int → Bool) :
    ∀ (snap : List Registration) (st : LoopState) (x : Int),
    x ∈ st.regs.map Registration.fd →
    x ∉ snap.map Registration.fd →
    x ∈ (dispatchPass behave ready snap st).1.regs.map Registration.fd := by
  intro snap
  induction snap with
  | nil => intro st x hx _; exact hx
  | cons r rest ih =>
    intro st x hx hsnap
    have hrx : r.fd ≠ x := by
      intro he
      exact hsnap (List.mem_map.2 ⟨r, List.mem_cons_self r rest, he⟩)
    have hrest : x ∉ rest.map Registration.fd := by
      intro he
      rcases List.mem_map.1 he with ⟨q, hq, hqe⟩
      exact hsnap (List.mem_map.2 ⟨q, List.mem_cons_of_mem r hq, hqe⟩)
    cases h : ready r.fd with
    | true =>
      rw [dispatchPass_cons_ready _ _ _ _ _ h]
      refine ih (dispatchOne behave st r) x ?_ hrest
      rcases List.mem_map.1 hx with ⟨q, hq, hqe⟩
      refine List.mem_map.2 ⟨q, ?_, hqe⟩
      refine mem_dispatchOne_of_mem behave st r q hq ?_
      intro _
      rw [hqe]
      exact fun he => hrx he.symm
    | false =>
      rw [dispatchPass_cons_not_ready _ _ _ _ _ h]
      exact ih st x hx hrest

theorem mem_dispatchPass_of_no_fail (behave : Int → HandlerEffect)
    (ready : Int → Bool) :
    ∀ (snap : List Registration) (st : LoopState) (q : Registration),
    q ∈ st.regs →
    (∀ g ∈ snap, ready g.fd = true → (behave g.fd).result = none → g.fd ≠ q.fd) →
    q ∈ (dispatchPass behave ready snap st).1.regs := by
  intro snap
  induction snap with
  | nil => intro st q hq _; exact hq
  | cons r rest ih =>
    intro st q hq hkeep
    cases h : ready r.fd with
    | true =>
      rw [dispatchPass_cons_ready _ _ _ _ _ h]
      refine ih (dispatchOne behave st r) q ?_ ?_
      · refine mem_dispatchOne_of_mem behave st r q hq ?_
        intro hnone he
        exact hkeep r (List.mem_cons_self r rest) h hnone he.symm
      · intro g hg hgr hgn
        exact hkeep g (List.mem_cons_of_mem r hg) hgr hgn
    | false =>
      rw [dispatchPass_cons_not_ready _ _ _ _ _ h]
      refine ih st q hq ?_
      intro g hg hgr hgn
      exact hkeep g (List.mem_cons_of_mem r hg) hgr hgn

theorem dispatchPass_no_ready (behave : Int → HandlerEffect)
    (ready : Int → Bool) :
    ∀ (snap : List Registration) (st : LoopState),
    (∀ g ∈ snap, ready g.fd = false) →
    dispatchPass behave ready snap st = (st, []) := by
  intro snap
  induction snap with
  | nil => intro st _; rfl
  | cons r rest ih =>
    intro st hnr
    rw [dispatchPass_cons_not_ready _ _ _ _ _ (hnr r (List.mem_cons_self r rest))]
    exact ih st fun g hg => hnr g (List.mem_cons_of_mem r hg)

theorem dispatchPass_append (behave : Int → HandlerEffect)
    (ready : Int → Bool) :
    ∀ (l1 l2 : List Registration) (st : LoopState),
    dispatchPass behave ready (l1 ++ l2) st =
      ((dispatchPass behave ready l2 (dispatchPass behave ready l1 st).1).1,
       (dispatchPass behave ready l1 st).2 ++
         (dispatchPass behave ready l2 (dispatchPass behave ready l1 st).1).2) := by
  intro l1
  induction l1 with
  | nil => intro l2 st; simp [dispatchPass_nil]
  | cons r rest ih =>
    intro l2 st
    cases h : ready r.fd with
    | true =>
      rw [List.cons_append, dispatchPass_cons_ready _ _ _ _ _ h,
        dispatchPass_cons_ready _ _ _ _ _ h, ih]
      simp
    | false =>
      rw [List.cons_append, dispatchPass_cons_not_ready _ _ _ _ _ h,
        dispatchPass_cons_not_ready _ _ _ _ _ h, ih]

theorem addBudget_cons_ready (behave : Int → HandlerEffect) (ready : Int → Bool)
    (r : Registration) (rest : List Registration) (h : ready r.fd = true) :
    addBudget behave ready (r :: rest) =
      (behave r.fd).adds.length + addBudget behave ready rest := by
  unfold addBudget
  simp [List.filter_cons, h]

theorem addBudget_cons_not_ready (behave : Int → HandlerEffect)
    (ready : Int → Bool) (r : Registration) (rest : List Registration)
    (h : ready r.fd = false) :
    addBudget behave ready (r :: rest) = addBudget behave ready rest := by
  unfold addBudget
  simp [List.filter_cons, h]

theorem fail_removed_by_pass (behave : Int → HandlerEffect) (ready : Int → Bool) :
    ∀ (snap : List Registration) (st : LoopState) (x : Int),
    (∀ g ∈ snap, ∀ a ∈ (behave g.fd).adds, a.fd ≠ x) →
    (behave x).result = none → ready x = true →
    x ∈ snap.map Registration.fd →
    x ∉ (dispatchPass behave ready snap st).1.regs.map Registration.fd ∧
    x ∈ (dispatchPass behave ready snap st).1.closed := by
  intro snap
  induction snap with
  | nil => intro st x _ _ _ hx; cases hx
  | cons g rest ih =>
    intro st x hnoadd hnone hready hx
    by_cases hgx : g.fd = x
    · have hg : ready g.fd = true := by rw [hgx]; exact hready
      rw [dispatchPass_cons_ready _ _ _ _ _ hg]
      have hgn : (behave g.fd).result = none := by rw [hgx]; exact hnone
      have hnotin : x ∉ (dispatchOne behave st g).regs.map Registration.fd := by
        unfold dispatchOne
        simp only [hgn]
        intro hmem
        rcases List.mem_map.1 hmem with ⟨q, hq, hqe⟩
        exact bne_iff_ne.1 (List.mem_filter.1 hq).2 (hqe.trans hgx.symm)
      have hcl : x ∈ (dispatchOne behave st g).closed := by
        unfold dispatchOne
        simp only [hgn]
        rw [hgx]
        exact List.mem_append_right _ (List.mem_singleton.2 rfl)
      constructor
      · exact not_mem_fds_dispatchPass behave ready rest _ x hnotin
          (fun g2 hg2 a ha => hnoadd g2 (List.mem_cons_of_mem g hg2) a ha)
      · exact mem_closed_dispatchPass behave ready rest _ x hcl
    · have hx2 : x ∈ rest.map Registration.fd := by
        rcases List.mem_map.1 hx with ⟨q, hq, hqe⟩
        rcases List.mem_cons.1 hq with h1 | h1
        · exact absurd (h1 ▸ hqe) hgx
        · exact List.mem_map.2 ⟨q, h1, hqe⟩
      have hnoadd2 : ∀ g2 ∈ rest, ∀ a ∈ (behave g2.fd).adds, a.fd ≠ x :=
        fun g2 hg2 a ha => hnoadd g2 (List.mem_cons_of_mem g hg2) a ha
      cases hgr : ready g.fd with
      | true =>
        rw [dispatchPass_cons_ready _ _ _ _ _ hgr]
        exact ih (dispatchOne behave st g) x hnoadd2 hnone hready hx2
      | false =>
        rw [dispatchPass_cons_not_ready _ _ _ _ _ hgr]
        exact ih st x hnoadd2 hnone hready hx2

theorem added_fd_present_after_pass (behave : Int → HandlerEffect)
    (ready : Int → Bool) :
    ∀ (snap : List Registration) (st : LoopState) (f : Registration) (x : Int),
    f ∈ snap → ready f.fd = true →
    x ∈ (behave f.fd).adds.map Registration.fd →
    (∀ r ∈ snap, r.fd ≠ x) →
    st.regs.length + addBudget behave ready snap ≤ MAX_QUEUE →
    x ∈ (dispatchPass behave ready snap st).1.regs.map Registration.fd := by
  intro snap
  induction snap with
  | nil => intro st f x hf; cases hf
  | cons g rest ih =>
    intro st f x hf hready hx hfresh hroom
    have hfreshrest : x ∉ rest.map Registration.fd := by
      intro hm; rcases List.mem_map.1 hm with ⟨q, hq, hqe⟩
      exact hfresh q (List.mem_cons_of_mem g hq) hqe
    rcases List.mem_cons.1 hf with rfl | hfr
    · rw [dispatchPass_cons_ready _ _ _ _ _ hready]
      have hin : x ∈ (dispatchOne behave st f).regs.map Registration.fd := by
        rcases List.mem_map.1 hx with ⟨a, ha, hae⟩
        have hroom2 : st.regs.length + (behave f.fd).adds.length ≤ MAX_QUEUE := by
          rw [addBudget_cons_ready behave ready f rest hready] at hroom
          omega
        have hmem : a ∈ applyAdds st.regs (behave f.fd).adds :=
          mem_applyAdds_of_mem_adds _ _ _ hroom2 ha
        unfold dispatchOne
        cases hres : (behave f.fd).result with
        | none =>
          simp only [hres]
          refine List.mem_map.2 ⟨a, List.mem_filter.2 ⟨hmem, ?_⟩, hae⟩
          refine bne_iff_ne.2 ?_
          rw [hae]
          exact fun he => hfresh f (List.mem_cons_self f rest) he.symm
        | some v =>
          simp only [hres]
          exact List.mem_map.2 ⟨a, hmem, hae⟩
      exact mem_fds_dispatchPass_of_fresh behave ready rest _ x hin hfreshrest
    · have hfresh2 : ∀ r ∈ rest, r.fd ≠ x :=
        fun r hr => hfresh r (List.mem_cons_of_mem g hr)
      cases hg : ready g.fd with
      | true =>
        rw [dispatchPass_cons_ready _ _ _ _ _ hg]
        refine ih (dispatchOne behave st g) f x hfr hready hx hfresh2 ?_
        have h1 := dispatchOne_length behave st g
        rw [addBudget_cons_ready behave ready g rest hg] at hroom
        omega
      | false =>
        rw [dispatchPass_cons_not_ready _ _ _ _ _ hg]
        refine ih st f x hfr hready hx hfresh2 ?_
        rw [addBudget_cons_not_ready behave ready g rest hg] at hroom
        exact hroom

theorem pass_keeps_listener_head (behave : Int → HandlerEffect)
    (ready : Int → Bool) (listener : Registration)
    (hp : ∀ f : Int, (behave f).result = none → f ≠ listener.fd) :
    ∀ (snap : List Registration) (st : LoopState) (tail : List Registration),
    st.regs = listener :: tail →
    ∃ tail2, (dispatchPass behave ready snap st).1.regs = listener :: tail2 := by
  intro snap
  induction snap with
  | nil => intro st tail htail; exact ⟨tail, htail⟩
  | cons g rest ih =>
    intro st tail htail
    cases hg : ready g.fd with
    | false =>
      rw [dispatchPass_cons_not_ready _ _ _ _ _ hg]
      exact ih st tail htail
    | true =>
      rw [dispatchPass_cons_ready _ _ _ _ _ hg]
      rcases applyAdds_eq_append st.regs (behave g.fd).adds with ⟨extra, he, _⟩
      cases hres : (behave g.fd).result with
      | some v =>
        refine ih (dispatchOne behave st g) (tail ++ extra) ?_
        unfold dispatchOne
        simp only [hres]
        rw [he, htail]
        simp
      | none =>
        have hne : listener.fd ≠ g.fd :=
          fun hcon => hp g.fd hres hcon.symm
        refine ih (dispatchOne behave st g)
          ((tail ++ extra).filter (fun q => q.fd != g.fd)) ?_
        unfold dispatchOne
        simp only [hres]
        rw [he, htail, List.cons_append, List.filter_cons]
        simp only [bne_iff_ne]
        simp [hne]

/-- C8: addFd, startReactor, stopReactor and WaitFor are all declared with
return type void in src/reactor.h (lines 135, 142, 151, 158), and a void
return carries no value back: the public interface gives the caller of
addFd no in-band return channel through which a failed or rejected add
could ever be observed. -/
theorem addFd_interface_has_no_error_channel :
    (headerSignature CName.addFd).1 = CType.void ∧
    (headerSignature CName.startReactor).1 = CType.void ∧
    (headerSignature CName.stopReactor).1 = CType.void ∧
    (headerSignature CName.waitFor).1 = CType.void ∧
    carriesValue CType.void = false := by
  decide

/-- C2: with the registry already holding MAX_QUEUE = 16384 registrations,
a further addFd reports the resource-exhaustion error to its caller
(non-silent, as an explicit AddResult) and leaves the registry unchanged,
its size still 16384. -/
theorem addFd_at_capacity_rejected (regs : List Registration) (fd : Int)
    (handler : Nat) (hfull : regs.length = MAX_QUEUE) :
    (addFd regs fd handler).2 = AddResult.resourceExhaustion ∧
    (addFd regs fd handler).1 = regs ∧
    (addFd regs fd handler).1.length = 16384 := by
  simp [addFd, hfull, MAX_QUEUE]

/-- C2 witness: a concrete registry of exactly 16384 registrations rejects
one further add and is left unchanged. -/
theorem addFd_at_capacity_rejected_witness :
    (addFd (List.replicate 16384 (⟨0, 0⟩ : Registration)) 7 1).2 =
      AddResult.resourceExhaustion ∧
    (addFd (List.replicate 16384 (⟨0, 0⟩ : Registration)) 7 1).1 =
      List.replicate 16384 ⟨0, 0⟩ ∧
    (addFd (List.replicate 16384 (⟨0, 0⟩ : Registration)) 7 1).1.length = 16384 :=
  addFd_at_capacity_rejected (List.replicate 16384 ⟨0, 0⟩) 7 1
    (by rw [List.length_replicate]; rfl)

/-- C1: for any engine state, after stopReactor the background loop task
reaches the exited phase within two steps under every readiness schedule —
including the all-false schedule, i.e. zero ready descriptors pending while
the loop sits blocked in the indefinite multiplexing wait — and hence
WaitFor, which returns exactly when the task exits, terminates. -/
theorem stop_then_waitFor_terminates (readiness : Nat → Bool)
    (st : EngineState) :
    (stepsFrom readiness (stopReactor st) 2).phase = LoopPhase.exited ∧
    waitForReturns readiness (stopReactor st) := by
  have h2 : (stepsFrom readiness (stopReactor st) 2).phase = LoopPhase.exited := by
    rcases st with ⟨r, c, ph⟩
    cases ph <;> simp [stepsFrom, stopReactor, loopStep]
  exact ⟨h2, 2, h2⟩

/-- C10: client_handler returns NULL exactly when the read fails or reads
zero bytes, and on success returns exactly the react pointer it was given;
server_handler returns NULL exactly when the accept fails, and on success
returns exactly the react pointer it was given. -/
theorem handlers_return_react_or_null (readResult : Option Nat)
    (acceptResult : Option Int) (react : Nat) (regs : List Registration)
    (clientHandlerId : Nat) :
    (client_handler readResult react = none ↔
      (readResult = none ∨ readResult = some 0)) ∧
    (client_handler readResult react ≠ none →
      client_handler readResult react = some react) ∧
    ((server_handler acceptResult react regs clientHandlerId).2 = none ↔
      acceptResult = none) ∧
    ((server_handler acceptResult react regs clientHandlerId).2 ≠ none →
      (server_handler acceptResult react regs clientHandlerId).2 = some react) := by
  obtain _ | (_ | n) := readResult <;> obtain _ | c := acceptResult <;>
    simp [client_handler, server_handler]

/-- C10 witness: a 5-byte read returns the react pointer 42; a successful
accept of descriptor 9 returns the react pointer 42. -/
theorem handlers_return_react_or_null_witness :
    client_handler (some 5) 42 = some 42 ∧
    (server_handler (some 9) 42 [] 1).2 = some 42 :=
  ⟨(handlers_return_react_or_null (some 5) (some 9) 42 [] 1).2.1 (by decide),
   (handlers_return_react_or_null (some 5) (some 9) 42 [] 1).2.2.2 (by decide)⟩

/-- C6: within one iteration of the readiness loop, the invocation trace is
exactly the pre-scan snapshot restricted to ready descriptors, in
registration (insertion) order — dispatch is sequential in that order — and
hence the listening descriptor at index 0, when ready, heads the trace,
serviced before any client descriptor ready in the same iteration. -/
theorem ready_serviced_in_registration_order (behave : Int → HandlerEffect)
    (ready : Int → Bool) (st : LoopState) :
    (iteration behave ready st).2 =
      (st.regs.filter (fun r => ready r.fd)).map Registration.fd ∧
    ∀ listener rest, st.regs = listener :: rest → ready listener.fd = true →
      (iteration behave ready st).2.head? = some listener.fd := by
  constructor
  · exact dispatchPass_trace behave ready st.regs st
  · intro listener rest hregs hready
    unfold iteration
    rw [hregs, dispatchPass_cons_ready _ _ _ _ _ hready]
    rfl

/-- C6 witness: registry [fd 3 listener, fd 4 client], both ready — the
trace is headed by descriptor 3. -/
theorem ready_serviced_in_registration_order_witness :
    (iteration (fun _ => HandlerEffect.mk (some 1) []) (fun _ => true)
      (LoopState.mk [⟨3, 0⟩, ⟨4, 1⟩] [])).2.head? = some 3 :=
  (ready_serviced_in_registration_order (fun _ => HandlerEffect.mk (some 1) [])
    (fun _ => true) (LoopState.mk [⟨3, 0⟩, ⟨4, 1⟩] [])).2 ⟨3, 0⟩ [⟨4, 1⟩] rfl rfl

/-- C3: for a registered descriptor dispatched in a pass (ready), a NULL
(none) handler result causes its registration to be removed from the
registry and its descriptor to appear among the closed ones by the time the
pass completes, while any non-NULL result leaves its registration in the
registry: NULL is the sole eviction signal.  hnoadd is the spec 4.1 add
precondition instantiated here: no handler of this pass registers a
descriptor equal to the one under scrutiny. -/
theorem null_result_is_sole_eviction_signal (behave : Int → HandlerEffect)
    (ready : Int → Bool) (st : LoopState) (r : Registration)
    (hr : r ∈ st.regs) (hready : ready r.fd = true)
    (hnoadd : ∀ g ∈ st.regs, ∀ a ∈ (behave g.fd).adds, a.fd ≠ r.fd) :
    ((behave r.fd).result = none →
      r.fd ∉ (iteration behave ready st).1.regs.map Registration.fd ∧
      r.fd ∈ (iteration behave ready st).1.closed) ∧
    ((behave r.fd).result ≠ none →
      r ∈ (iteration behave ready st).1.regs) := by
  constructor
  · intro hnone
    exact fail_removed_by_pass behave ready st.regs st r.fd hnoadd hnone hready
      (List.mem_map.2 ⟨r, hr, rfl⟩)
  · intro hsome
    refine mem_dispatchPass_of_no_fail behave ready st.regs st r hr ?_
    intro g _ _ hgn he
    rw [he] at hgn
    exact hsome hgn

/-- C3 witness: registry [fd 3, fd 4], both ready, fd 4's handler returns
NULL: after the pass, 4 is absent from the registry and closed. -/
theorem null_result_is_sole_eviction_signal_witness :
    (4 : Int) ∉ (iteration
      (fun f => if f = 4 then HandlerEffect.mk none []
        else HandlerEffect.mk (some 1) [])
      (fun _ => true)
      (LoopState.mk [⟨3, 0⟩, ⟨4, 1⟩] [])).1.regs.map Registration.fd ∧
    (4 : Int) ∈ (iteration
      (fun f => if f = 4 then HandlerEffect.mk none []
        else HandlerEffect.mk (some 1) [])
      (fun _ => true)
      (LoopState.mk [⟨3, 0⟩, ⟨4, 1⟩] [])).1.closed :=
  (null_result_is_sole_eviction_signal
    (fun f => if f = 4 then HandlerEffect.mk none []
      else HandlerEffect.mk (some 1) [])
    (fun _ => true) (LoopState.mk [⟨3, 0⟩, ⟨4, 1⟩] []) ⟨4, 1⟩
    (by decide) (by decide) (by decide)).1 (by decide)

/-- C5: a descriptor newfd registered via addFd from inside the handler of f
invoked during iteration N — newfd fresh (not already registered) and the
pass staying within the MAX_QUEUE bound — is not part of iteration N's
dispatch trace, is present in the registry when iteration N completes (so
it is serviced no earlier than iteration N+1, whose snapshot it joins), and
the mid-dispatch addition does not corrupt the scan in progress: the trace
is still exactly the ready part of N's pre-scan snapshot, in order. -/
theorem add_mid_dispatch_visible_next_iteration (behave : Int → HandlerEffect)
    (ready : Int → Bool) (st : LoopState) (f : Registration) (newfd : Int)
    (hf : f ∈ st.regs) (hready : ready f.fd = true)
    (hnew : newfd ∈ (behave f.fd).adds.map Registration.fd)
    (hfresh : ∀ r ∈ st.regs, r.fd ≠ newfd)
    (hroom : st.regs.length + addBudget behave ready st.regs ≤ MAX_QUEUE) :
    newfd ∉ (iteration behave ready st).2 ∧
    newfd ∈ (iteration behave ready st).1.regs.map Registration.fd ∧
    (iteration behave ready st).2 =
      (st.regs.filter (fun r => ready r.fd)).map Registration.fd := by
  refine ⟨?_, ?_, dispatchPass_trace behave ready st.regs st⟩
  · rw [show (iteration behave ready st).2 =
        (st.regs.filter (fun r => ready r.fd)).map Registration.fd from
        dispatchPass_trace behave ready st.regs st]
    intro hmem
    rcases List.mem_map.1 hmem with ⟨q, hq, hqe⟩
    exact hfresh q (List.mem_filter.1 hq).1 hqe
  · exact added_fd_present_after_pass behave ready st.regs st f newfd
      hf hready hnew hfresh hroom

/-- C5 witness: registry [fd 3]; fd 3's handler registers fd 5 mid-pass:
5 is not in iteration N's trace but is registered when the pass ends. -/
theorem add_mid_dispatch_visible_next_iteration_witness :
    (5 : Int) ∉ (iteration (fun _ => HandlerEffect.mk (some 1) [⟨5, 1⟩])
      (fun _ => true) (LoopState.mk [⟨3, 0⟩] [])).2 ∧
    (5 : Int) ∈ (iteration (fun _ => HandlerEffect.mk (some 1) [⟨5, 1⟩])
      (fun _ => true) (LoopState.mk [⟨3, 0⟩] [])).1.regs.map Registration.fd :=
  ⟨(add_mid_dispatch_visible_next_iteration
      (fun _ => HandlerEffect.mk (some 1) [⟨5, 1⟩]) (fun _ => true)
      (LoopState.mk [⟨3, 0⟩] []) ⟨3, 0⟩ 5
      (by decide) rfl (by decide) (by decide) (by decide)).1,
   (add_mid_dispatch_visible_next_iteration
      (fun _ => HandlerEffect.mk (some 1) [⟨5, 1⟩]) (fun _ => true)
      (LoopState.mk [⟨3, 0⟩] []) ⟨3, 0⟩ 5
      (by decide) rfl (by decide) (by decide) (by decide)).2.1⟩

/-- C7: when the only ready descriptor of an iteration is a client c whose
peer performed an orderly close — its handler sees the zero-byte read and
returns NULL (client_handler (some 0)), registering nothing — the registry
loses exactly c's registration: with registry pre ++ c :: post before, it
is pre ++ post after (listener and all other clients unchanged, same
descriptors, handlers and relative order), and the count drops by exactly
one. -/
theorem orderly_close_evicts_exactly_one (behave : Int → HandlerEffect)
    (ready : Int → Bool) (st : LoopState) (c : Registration)
    (pre post : List Registration) (react : Nat)
    (hsplit : st.regs = pre ++ c :: post)
    (hnodup : (st.regs.map Registration.fd).Nodup)
    (hreadyc : ready c.fd = true)
    (honly : ∀ r ∈ st.regs, r.fd ≠ c.fd → ready r.fd = false)
    (hres : (behave c.fd).result = client_handler (some 0) react)
    (hadds : (behave c.fd).adds = []) :
    (iteration behave ready st).1.regs = pre ++ post ∧
    (iteration behave ready st).1.regs.length + 1 = st.regs.length := by
  have hnone : (behave c.fd).result = none := hres
  have hmapnd : (pre.map Registration.fd ++
      c.fd :: post.map Registration.fd).Nodup := by
    rw [hsplit] at hnodup
    simpa using hnodup
  have hprefd : ∀ r ∈ pre, r.fd ≠ c.fd := by
    intro r hr he
    have hdisj := (List.nodup_append.1 hmapnd).2.2
    exact hdisj (List.mem_map.2 ⟨r, hr, he⟩) (List.mem_cons_self _ _)
  have hpostfd : ∀ r ∈ post, r.fd ≠ c.fd := by
    intro r hr he
    have hnd2 := (List.nodup_append.1 hmapnd).2.1
    have := (List.nodup_cons.1 hnd2).1
    exact this (List.mem_map.2 ⟨r, hr, he.symm ▸ rfl⟩)
  have hready_pre : ∀ r ∈ pre, ready r.fd = false := by
    intro r hr
    exact honly r (by rw [hsplit]; exact List.mem_append_left _ hr) (hprefd r hr)
  have hready_post : ∀ r ∈ post, ready r.fd = false := by
    intro r hr
    refine honly r ?_ (hpostfd r hr)
    rw [hsplit]
    exact List.mem_append_right _ (List.mem_cons_of_mem c hr)
  have h0 : dispatchPass behave ready pre st = (st, []) :=
    dispatchPass_no_ready behave ready pre st hready_pre
  have hfilter : st.regs.filter (fun q => q.fd != c.fd) = pre ++ post := by
    rw [hsplit, List.filter_append, List.filter_cons]
    have h2 : pre.filter (fun q => q.fd != c.fd) = pre :=
      List.filter_eq_self.2 (fun r hr => bne_iff_ne.2 (hprefd r hr))
    have h3 : post.filter (fun q => q.fd != c.fd) = post :=
      List.filter_eq_self.2 (fun r hr => bne_iff_ne.2 (hpostfd r hr))
    simp [h2, h3]
  have hdone : dispatchOne behave st c =
      LoopState.mk (pre ++ post) (st.closed ++ [c.fd]) := by
    unfold dispatchOne
    simp only [hnone, hadds, applyAdds_nil]
    rw [hfilter]
  have hiter : (iteration behave ready st).1 =
      LoopState.mk (pre ++ post) (st.closed ++ [c.fd]) := by
    unfold iteration
    rw [hsplit, dispatchPass_append, h0, dispatchPass_cons_ready _ _ _ _ _ hreadyc,
      hdone, dispatchPass_no_ready behave ready post _ hready_post]
  constructor
  · rw [hiter]
  · rw [hiter, hsplit]
    simp
    omega

/-- C7 witness: registry [fd 3 listener, fd 4 client, fd 5 client]; only fd
4 is ready and its peer closed (zero-byte read): afterwards the registry is
[fd 3, fd 5] and the count dropped from 3 to 2. -/
theorem orderly_close_evicts_exactly_one_witness :
    (iteration (fun f => if f = 4 then HandlerEffect.mk none []
        else HandlerEffect.mk (some 1) [])
      (fun f => f == 4)
      (LoopState.mk [⟨3, 0⟩, ⟨4, 1⟩, ⟨5, 1⟩] [])).1.regs = [⟨3, 0⟩, ⟨5, 1⟩] ∧
    (iteration (fun f => if f = 4 then HandlerEffect.mk none []
        else HandlerEffect.mk (some 1) [])
      (fun f => f == 4)
      (LoopState.mk [⟨3, 0⟩, ⟨4, 1⟩, ⟨5, 1⟩] [])).1.regs.length + 1 = 3 :=
  orderly_close_evicts_exactly_one
    (fun f => if f = 4 then HandlerEffect.mk none []
      else HandlerEffect.mk (some 1) [])
    (fun f => f == 4) (LoopState.mk [⟨3, 0⟩, ⟨4, 1⟩, ⟨5, 1⟩] []) ⟨4, 1⟩
    [⟨3, 0⟩] [⟨5, 1⟩] 7 rfl (by decide) (by decide) (by decide)
    (by decide) (by decide)

/-- C4 counterexample: the claim quantifies over every state reachable
between start and stop, but the handler contract lets the listener's own
accept fail (spec 4.2: on accept failure the handler returns NULL and the
engine evicts the listening descriptor).  From the start state with
listener fd 3, one iteration in which the listener is ready and its handler
returns NULL reaches a reachable state whose registry is empty: the
listening registration is not present, let alone at position 0. -/
theorem listener_evicted_on_accept_failure :
    Reachable ⟨3, 0⟩ (LoopState.mk [] [3]) ∧
    (LoopState.mk [] [3]).regs.head? ≠ some ⟨3, 0⟩ := by
  constructor
  · have h := Reachable.step (fun _ => HandlerEffect.mk none [])
      (fun _ => true) (LoopState.mk [⟨3, 0⟩] []) Reachable.start
    have e : (iteration (fun _ => HandlerEffect.mk none [])
        (fun _ => true) (LoopState.mk [⟨3, 0⟩] [])).1 =
        LoopState.mk [] [3] := by decide
    exact e ▸ h
  · decide

/-- C4 amended: in every state reachable between start and stop along
traces in which no failing handler invocation carries the listening
descriptor — in particular every accept on the listener succeeds — the
listening registration is present and is the first entry (position 0) of
the registry; in particular a successful accept never evicts it. -/
theorem listener_first_while_accepts_succeed (listener : Registration)
    (st : LoopState) (h : ReachableGood listener st) :
    st.regs.head? = some listener := by
  induction h with
  | start => rfl
  | step behave ready st hp hr ih =>
    obtain ⟨tail, htail⟩ : ∃ tail, st.regs = listener :: tail := by
      cases hregs : st.regs with
      | nil => rw [hregs] at ih; cases ih
      | cons a t =>
        rw [hregs] at ih
        exact ⟨t, by rw [Option.some_inj.1 ih]⟩
    obtain ⟨tail2, h2⟩ :=
      pass_keeps_listener_head behave ready listener hp st.regs st tail htail
    unfold iteration
    rw [h2]
    rfl

/-- C4 witness (amended claim): one iteration from the start state in which
the listener fd 3 accepts successfully and registers client fd 5 — the
reached registry still has the listener first. -/
theorem listener_first_while_accepts_succeed_witness :
    (LoopState.mk [⟨3, 0⟩, ⟨5, 1⟩] []).regs.head? = some ⟨3, 0⟩ := by
  have hp : PreservesListener ⟨3, 0⟩
      (fun f => if f = 3 then HandlerEffect.mk (some 1) [⟨5, 1⟩]
        else HandlerEffect.mk (some 1) []) := by
    intro f hf
    by_cases h3 : f = 3 <;> simp [h3] at hf
  have h := ReachableGood.step
    (fun f => if f = 3 then HandlerEffect.mk (some 1) [⟨5, 1⟩]
      else HandlerEffect.mk (some 1) [])
    (fun _ => true) (LoopState.mk [⟨3, 0⟩] []) hp ReachableGood.start
  have e : (iteration
      (fun f => if f = 3 then HandlerEffect.mk (some 1) [⟨5, 1⟩]
        else HandlerEffect.mk (some 1) [])
      (fun _ => true) (LoopState.mk [⟨3, 0⟩] [])).1 =
      LoopState.mk [⟨3, 0⟩, ⟨5, 1⟩] [] := by decide
  exact listener_first_while_accepts_succeed ⟨3, 0⟩ _ (e ▸ h)

theorem chainFrom_nil_inv (heap : List HNode) (p : Option Nat)
    (h : ChainFrom heap p []) : p = none := by
  cases h
  rfl

theorem chainFrom_unique (heap : List HNode) (p : Option Nat) (l1 : List Nat)
    (h1 : ChainFrom heap p l1) :
    ∀ l2, ChainFrom heap p l2 → l1 = l2 := by
  induction h1 with
  | nil =>
    intro l2 h2
    cases h2
    rfl
  | cons a node rest hget hrest ih =>
    intro l2 h2
    cases h2 with
    | cons a2 node2 rest2 hget2 hrest2 =>
      have hn : node = node2 := Option.some_inj.1 (hget.symm.trans hget2)
      subst hn
      rw [ih rest2 hrest2]

theorem chainFrom_mem_suffix (heap : List HNode) (p : Option Nat)
    (l : List Nat) (h : ChainFrom heap p l) :
    ∀ a ∈ l, ∃ s, ChainFrom heap (some a) (a :: s) ∧ (a :: s).length ≤ l.length := by
  induction h with
  | nil => intro a ha; cases ha
  | cons b node rest hget hrest ih =>
    intro a ha
    rcases List.mem_cons.1 ha with rfl | ha2
    · exact ⟨rest, ChainFrom.cons a node rest hget hrest, le_refl _⟩
    · rcases ih a ha2 with ⟨s, hs, hlen⟩
      refine ⟨s, hs, ?_⟩
      simp only [List.length_cons] at hlen ⊢
      omega

theorem chainFrom_nodup (heap : List HNode) (p : Option Nat) (l : List Nat)
    (h : ChainFrom heap p l) : l.Nodup := by
  induction h with
  | nil => exact List.nodup_nil
  | cons a node rest hget hrest ih =>
    refine List.nodup_cons.2 ⟨?_, ih⟩
    intro ha
    rcases chainFrom_mem_suffix heap node.next rest hrest a ha with ⟨s, hs, hlen⟩
    have heq := chainFrom_unique heap (some a) (a :: s) hs (a :: rest)
      (ChainFrom.cons a node rest hget hrest)
    injection heq with _ hsr
    rw [hsr] at hlen
    simp only [List.length_cons] at hlen
    omega

theorem chainFrom_lt_length (heap : List HNode) (p : Option Nat) (l : List Nat)
    (h : ChainFrom heap p l) : ∀ a ∈ l, a < heap.length := by
  induction h with
  | nil => intro a ha; cases ha
  | cons b node rest hget hrest ih =>
    intro a ha
    rcases List.mem_cons.1 ha with rfl | ha2
    · exact (List.getElem?_eq_some_iff.1 hget).1
    · exact ih a ha2

theorem chainFrom_length_le (heap : List HNode) (p : Option Nat) (l : List Nat)
    (h : ChainFrom heap p l) : l.length ≤ heap.length := by
  have hnd := chainFrom_nodup heap p l h
  have hsub : l ⊆ List.range heap.length := fun a ha =>
    List.mem_range.2 (chainFrom_lt_length heap p l h a ha)
  have hle := (List.subperm_of_subset hnd hsub).length_le
  simpa using hle

theorem traverse_none (heap : List HNode) (fuel : Nat) :
    traverse heap fuel none = some [] := by
  cases fuel <;> rfl

theorem traverse_of_chain (heap : List HNode) (p : Option Nat) (l : List Nat)
    (h : ChainFrom heap p l) :
    ∀ fuel, l.length ≤ fuel → traverse heap fuel p = some l := by
  induction h with
  | nil => intro fuel _; exact traverse_none heap fuel
  | cons a node rest hget hrest ih =>
    intro fuel hlen
    cases fuel with
    | zero => simp at hlen
    | succ f =>
      have h1 : rest.length ≤ f := by
        simp only [List.length_cons] at hlen; omega
      show traverse heap (f + 1) (some a) = some (a :: rest)
      simp [traverse, hget, ih f h1]

theorem chainFrom_append_heap (heap hs : List HNode) (p : Option Nat)
    (l : List Nat) (h : ChainFrom heap p l) : ChainFrom (heap ++ hs) p l := by
  induction h with
  | nil => exact ChainFrom.nil
  | cons a node rest hget hrest ih =>
    refine ChainFrom.cons a node rest ?_ ih
    rw [List.getElem?_append_left (List.getElem?_eq_some_iff.1 hget).1]
    exact hget

theorem setNext_length (heap : List HNode) (a : Nat) (nxt : Option Nat) :
    (setNext heap a nxt).length = heap.length := by
  unfold setNext
  cases h : heap[a]? <;> simp

theorem setNext_get_ne (heap : List HNode) (a b : Nat) (nxt : Option Nat)
    (hne : a ≠ b) : (setNext heap a nxt)[b]? = heap[b]? := by
  unfold setNext
  cases h : heap[a]? with
  | none => rfl
  | some node => exact List.getElem?_set_ne hne

theorem setNext_get_self (heap : List HNode) (a : Nat) (nxt : Option Nat)
    (node : HNode) (h : heap[a]? = some node) :
    (setNext heap a nxt)[a]? = some ⟨node.fd, node.handler, nxt⟩ := by
  simp only [setNext, h]
  exact List.getElem?_set_self (List.getElem?_eq_some_iff.1 h).1

theorem chainFrom_setNext_not_mem (heap : List HNode) (b : Nat)
    (nxt : Option Nat) (p : Option Nat) (l : List Nat)
    (h : ChainFrom heap p l) (hb : b ∉ l) :
    ChainFrom (setNext heap b nxt) p l := by
  induction h with
  | nil => exact ChainFrom.nil
  | cons a node rest hget hrest ih =>
    have hba : b ≠ a := fun he => hb (he ▸ List.mem_cons_self a rest)
    refine ChainFrom.cons a node rest ?_
      (ih (fun hc => hb (List.mem_cons_of_mem a hc)))
    rw [setNext_get_ne heap b a nxt hba]
    exact hget

theorem chainFrom_cons_inv (heap : List HNode) (q : Option Nat) (a : Nat)
    (rest : List Nat) (h : ChainFrom heap q (a :: rest)) :
    q = some a ∧ ∃ node, heap[a]? = some node ∧ ChainFrom heap node.next rest := by
  cases h with
  | cons _ node _ hget hrest => exact ⟨rfl, node, hget, hrest⟩

theorem chain_snoc (heap : List HNode) (newNode : HNode)
    (hnextnil : newNode.next = none) :
    ∀ (l : List Nat) (a last : Nat),
    ChainFrom heap (some a) l → l.getLast? = some last →
    ChainFrom (setNext (heap ++ [newNode]) last (some heap.length))
      (some a) (l ++ [heap.length]) := by
  intro l
  induction l with
  | nil => intro a last hch _; cases hch
  | cons a0 rest ih =>
    intro a last hch hlast
    obtain ⟨hq, node, hget, hrest⟩ := chainFrom_cons_inv heap (some a) a0 rest hch
    have ha : a = a0 := Option.some_inj.1 hq
    subst ha
    have hlt : a < heap.length := (List.getElem?_eq_some_iff.1 hget).1
    cases rest with
    | nil =>
      have hnn : node.next = none := chainFrom_nil_inv heap node.next hrest
      have hla : a = last := by simpa using hlast
      subst hla
      have hget1 : (heap ++ [newNode])[a]? = some node := by
        rw [List.getElem?_append_left hlt]; exact hget
      refine ChainFrom.cons a ⟨node.fd, node.handler, some heap.length⟩
        [heap.length]
        (setNext_get_self (heap ++ [newNode]) a (some heap.length) node hget1) ?_
      refine ChainFrom.cons heap.length newNode [] ?_ ?_
      · rw [setNext_get_ne (heap ++ [newNode]) a heap.length (some heap.length)
          (Nat.ne_of_lt hlt)]
        exact List.getElem?_concat_length heap newNode
      · rw [hnextnil]; exact ChainFrom.nil
    | cons r0 rest2 =>
      obtain ⟨hnx, node2, hget2, hrest2⟩ :=
        chainFrom_cons_inv heap node.next r0 rest2 hrest
      have hlast2 : (r0 :: rest2).getLast? = some last := by
        rw [← List.getLast?_cons_cons]; exact hlast
      have hch2 : ChainFrom heap (some r0) (r0 :: rest2) := hnx ▸ hrest
      have hih := ih r0 last hch2 hlast2
      have hnd : (a :: r0 :: rest2).Nodup :=
        chainFrom_nodup heap (some a) _ (ChainFrom.cons a node _ hget hrest)
      have hanotin : a ∉ r0 :: rest2 := (List.nodup_cons.1 hnd).1
      have halast : last ≠ a := fun he =>
        hanotin (he ▸ List.mem_of_getLast?_eq_some hlast2)
      have hget1 : (setNext (heap ++ [newNode]) last
          (some heap.length))[a]? = some node := by
        rw [setNext_get_ne _ last a _ halast, List.getElem?_append_left hlt]
        exact hget
      refine ChainFrom.cons a node ((r0 :: rest2) ++ [heap.length]) hget1 ?_
      rw [hnx]
      exact hih

theorem addFdPtr_chain (reg : PtrRegistry) (fd : Int) (handler : Nat)
    (l : List Nat) (h : ChainFrom reg.heap reg.head l) :
    ∃ l2, ChainFrom (addFdPtr reg fd handler).heap
      (addFdPtr reg fd handler).head l2 := by
  cases hd : reg.head with
  | none =>
    refine ⟨[reg.heap.length], ?_⟩
    unfold addFdPtr
    simp only [hd]
    exact ChainFrom.cons reg.heap.length ⟨fd, handler, none⟩ []
      (List.getElem?_concat_length reg.heap ⟨fd, handler, none⟩) ChainFrom.nil
  | some hdv =>
    have hch : ChainFrom reg.heap (some hdv) l := hd ▸ h
    have htrav : traverse reg.heap reg.heap.length (some hdv) = some l := by
      rw [← hd]
      exact traverse_of_chain reg.heap reg.head l h reg.heap.length
        (chainFrom_length_le reg.heap reg.head l h)
    cases hlast : l.getLast? with
    | none =>
      rw [List.getLast?_eq_none_iff.1 hlast] at hch
      cases hch
    | some last =>
      refine ⟨l ++ [reg.heap.length], ?_⟩
      unfold addFdPtr
      simp only [hd, htrav, hlast]
      exact chain_snoc reg.heap ⟨fd, handler, none⟩ rfl l hdv last hch hlast

theorem removeFrom_none (heap : List HNode) (fd : Int) (fuel : Nat) :
    removeFrom heap fd fuel none = (heap, none) := by
  cases fuel <;> rfl

theorem removeFrom_succ_some (heap : List HNode) (fd : Int) (fuel : Nat)
    (a : Nat) :
    removeFrom heap fd (fuel + 1) (some a) =
      match heap[a]? with
      | none => (heap, some a)
      | some node =>
        if node.fd = fd then (heap, node.next)
        else
          (setNext (removeFrom heap fd fuel node.next).1 a
            (removeFrom heap fd fuel node.next).2, some a) := rfl

theorem removeFrom_chain (fd : Int) :
    ∀ (l : List Nat) (heap : List HNode) (p : Option Nat) (fuel : Nat),
    ChainFrom heap p l → l.length ≤ fuel →
    ∃ l2,
      ChainFrom (removeFrom heap fd fuel p).1 (removeFrom heap fd fuel p).2 l2 ∧
      (∀ b ∈ l2, b ∈ l) ∧
      (∀ b, b ∉ l → (removeFrom heap fd fuel p).1[b]? = heap[b]?) := by
  intro l
  induction l with
  | nil =>
    intro heap p fuel hch _
    have hp : p = none := chainFrom_nil_inv heap p hch
    subst hp
    rw [removeFrom_none]
    exact ⟨[], ChainFrom.nil, by simp, fun b _ => rfl⟩
  | cons a rest ih =>
    intro heap p fuel hch hlen
    obtain ⟨hq, node, hget, hrest⟩ := chainFrom_cons_inv heap p a rest hch
    subst hq
    cases fuel with
    | zero => simp at hlen
    | succ f =>
      have hrl : rest.length ≤ f := by
        simp only [List.length_cons] at hlen; omega
      by_cases hfd : node.fd = fd
      · have heq : removeFrom heap fd (f + 1) (some a) = (heap, node.next) := by
          rw [removeFrom_succ_some]
          simp [hget, hfd]
        rw [heq]
        exact ⟨rest, hrest, fun b hb => List.mem_cons_of_mem a hb,
          fun b _ => rfl⟩
      · obtain ⟨l2, hch2, hsub2, hpres2⟩ := ih heap node.next f hrest hrl
        have heq : removeFrom heap fd (f + 1) (some a) =
            (setNext (removeFrom heap fd f node.next).1 a
              (removeFrom heap fd f node.next).2, some a) := by
          rw [removeFrom_succ_some]
          simp [hget, hfd]
        rw [heq]
        have hnd : (a :: rest).Nodup :=
          chainFrom_nodup heap (some a) (a :: rest) hch
        have hanotin : a ∉ rest := (List.nodup_cons.1 hnd).1
        have hal2 : a ∉ l2 := fun hc => hanotin (hsub2 a hc)
        have houta : (removeFrom heap fd f node.next).1[a]? = some node := by
          rw [hpres2 a hanotin]; exact hget
        refine ⟨a :: l2, ?_, ?_, ?_⟩
        · refine ChainFrom.cons a
            ⟨node.fd, node.handler, (removeFrom heap fd f node.next).2⟩ l2
            (setNext_get_self (removeFrom heap fd f node.next).1 a
              (removeFrom heap fd f node.next).2 node houta) ?_
          exact chainFrom_setNext_not_mem (removeFrom heap fd f node.next).1 a
            (removeFrom heap fd f node.next).2
            (removeFrom heap fd f node.next).2 l2 hch2 hal2
        · intro b hb
          rcases List.mem_cons.1 hb with rfl | hb2
          · exact List.mem_cons_self _ _
          · exact List.mem_cons_of_mem _ (hsub2 b hb2)
        · intro b hbn
          have hbna : b ≠ a := fun he => hbn (he ▸ List.mem_cons_self a rest)
          have hbnr : b ∉ rest := fun hc => hbn (List.mem_cons_of_mem a hc)
          rw [setNext_get_ne (removeFrom heap fd f node.next).1 a b
            (removeFrom heap fd f node.next).2 (fun he => hbna he.symm)]
          exact hpres2 b hbnr

theorem removePtr_chain (reg : PtrRegistry) (fd : Int) (l : List Nat)
    (h : ChainFrom reg.heap reg.head l) :
    ∃ l2, ChainFrom (removePtr reg fd).heap (removePtr reg fd).head l2 := by
  obtain ⟨l2, hch, _, _⟩ :=
    removeFrom_chain fd l reg.heap reg.head reg.heap.length h
      (chainFrom_length_le reg.heap reg.head l h)
  exact ⟨l2, hch⟩

/-- C9: every registry reachable through the engine's head pointer — built
from the empty registry of create by pointer-level addFd tail-appends and
pointer-level removals — hangs a NULL-terminated and acyclic node list off
its head pointer: a finite visit list l exists (ChainFrom: following next
fields ends at NULL, and l is duplicate-free), and the pointer-walking
traversal with fuel heap.length — the per-iteration poll-set build —
terminates, returning exactly l, so it visits each registration exactly
once. -/
theorem registry_list_null_terminated_acyclic (reg : PtrRegistry)
    (h : PtrReachable reg) :
    ∃ l, ChainFrom reg.heap reg.head l ∧ l.Nodup ∧
      traverse reg.heap reg.heap.length reg.head = some l := by
  have hex : ∃ l, ChainFrom reg.heap reg.head l := by
    induction h with
    | create => exact ⟨[], ChainFrom.nil⟩
    | add reg2 fd handler _ ih =>
      obtain ⟨l, hl⟩ := ih
      exact addFdPtr_chain reg2 fd handler l hl
    | remove reg2 fd _ ih =>
      obtain ⟨l, hl⟩ := ih
      exact removePtr_chain reg2 fd l hl
  obtain ⟨l, hl⟩ := hex
  exact ⟨l, hl, chainFrom_nodup _ _ _ hl,
    traverse_of_chain _ _ _ hl _ (chainFrom_length_le _ _ _ hl)⟩

/-- C9 witness: the registry built by adding listener fd 3 then client fd 4
has a NULL-terminated acyclic chain, traversed exactly once per node. -/
theorem registry_list_null_terminated_acyclic_witness :
    ∃ l, ChainFrom (addFdPtr (addFdPtr ⟨[], none⟩ 3 0) 4 1).heap
        (addFdPtr (addFdPtr ⟨[], none⟩ 3 0) 4 1).head l ∧ l.Nodup ∧
      traverse (addFdPtr (addFdPtr ⟨[], none⟩ 3 0) 4 1).heap
        (addFdPtr (addFdPtr ⟨[], none⟩ 3 0) 4 1).heap.length
        (addFdPtr (addFdPtr ⟨[], none⟩ 3 0) 4 1).head = some l :=
  registry_list_null_terminated_acyclic _
    (PtrReachable.add _ 4 1 (PtrReachable.add _ 3 0 PtrReachable.create))

end Reactor
